import Mathlib

/-!
Verification of the `useForm` hook (form-hook repository).

The development shallowly embeds the two hook variants
(`src/unnamed/part_000` and `src/src/useForm.hook.ts`) and the
field-collection-to-record converter `parseFormData`.  The converter's
source file is not part of the repository snapshot (only its callers
are), so it is modelled from the specification.  Form elements are
modelled as ordered lists of named fields; the bound-element reference
is an `Option FormElement`; the event side effects of the submit
handler are modelled as an explicit trace of actions.
-/

set_option autoImplicit false

namespace FormHook

/-- A value in a parsed record: the spec's tagged union
`Scalar(String) | Multi(sequence of String)`. -/
inductive FormVal where
  | scalar (s : String)
  | multi (l : List String)
deriving DecidableEq, Repr

/-- The values associated with name `n` in an entry sequence, in
occurrence order. -/
def valuesFor (entries : List (String × String)) (n : String) : List String :=
  (entries.filter (fun e => e.1 == n)).map Prod.snd

/-- First-occurrence deduplication, accumulator version: keeps each
name the first time it appears and drops names already in `seen`. -/
def dedupFirstAux : List String → List String → List String
  | _, [] => []
  | seen, n :: rest =>
    if n ∈ seen then dedupFirstAux seen rest
    else n :: dedupFirstAux (n :: seen) rest

/-- The distinct names of a list, in first-occurrence order. -/
def dedupFirst (l : List String) : List String := dedupFirstAux [] l

/-- The record value for name `n` given the full entry sequence: the
single value when `n` occurs once, the ordered sequence of values when
it occurs more than once. -/
def parseVal (entries : List (String × String)) (n : String) : FormVal :=
  match valuesFor entries n with
  | [v] => FormVal.scalar v
  | vs => FormVal.multi vs

/-- Modelled from the spec: the converter `parseFormData`
(`src/utils/parseFormData`, absent from the snapshot; only its callers
are present).  Given the ordered sequence of (name, value) field
entries it produces a mapping with one key per distinct name, where a
name occurring once maps to its single value and a name occurring more
than once maps to the ordered sequence of its values. -/
def parseFormData (entries : List (String × String)) : List (String × FormVal) :=
  (dedupFirst (entries.map Prod.fst)).map (fun n => (n, parseVal entries n))

/-- A form control as seen through `form.elements`: a name, a current
value, a default value (used by native reset), and whether the element
bears a settable `value` property (inputs, selects, textareas do;
container elements such as fieldsets do not). -/
structure Field where
  name : String
  value : String
  defaultValue : String
  settable : Bool
deriving DecidableEq, Repr

/-- A form element: the ordered collection of its controls. -/
structure FormElement where
  fields : List Field
deriving DecidableEq, Repr

/-- The (name, value) entries produced by `new FormData(form)`: the
value-bearing controls, in document order. -/
def formEntries (fields : List Field) : List (String × String) :=
  (fields.filter (fun f => f.settable)).map (fun f => (f.name, f.value))

/-- The entries the form would yield after a native reset: every
value-bearing control paired with its default value. -/
def defaultEntries (fields : List Field) : List (String × String) :=
  (fields.filter (fun f => f.settable)).map (fun f => (f.name, f.defaultValue))

/-- Observable actions performed by a submit handler, in order:
suppressing the event's default behavior, reading the form's field
entries, and invoking the caller's callback with a parsed record. -/
inductive Action where
  | preventDefault
  | extract
  | callback (r : List (String × FormVal))
deriving DecidableEq, Repr

/-- The `onSubmit` handler of `src/unnamed/part_000` (lines 66-76):
`event.preventDefault()` first, then return if the ref is unbound,
otherwise read the form data, parse it and invoke the submit
callback. -/
def onSubmit (st : Option FormElement) : List Action :=
  Action.preventDefault ::
    match st with
    | none => []
    | some form =>
      [Action.extract, Action.callback (parseFormData (formEntries form.fields))]

/-- The `reset` operation of `src/unnamed/part_000` (lines 78-82):
no-op when unbound, otherwise the element's native reset, restoring
every control to its default value. -/
def reset (st : Option FormElement) : Option FormElement :=
  match st with
  | none => none
  | some form =>
    some ⟨form.fields.map (fun f => { f with value := f.defaultValue })⟩

/-- The `getFormData` operation of `src/unnamed/part_000` (lines
84-92): `null` when unbound, otherwise the parsed record of the
element's current entries. -/
def getFormData (st : Option FormElement) : Option (List (String × FormVal)) :=
  match st with
  | none => none
  | some form => some (parseFormData (formEntries form.fields))

/-- The result of `form.elements.namedItem(name)`: `null` when no
control bears the name, the control itself when exactly one does, and
a live `RadioNodeList` over the whole group when several controls
share the name. -/
inductive NamedItem where
  | null
  | single (f : Field)
  | group (fs : List Field)
deriving DecidableEq, Repr

/-- `form.elements.namedItem(name)`, following the DOM: the unique
control with the given name, a `RadioNodeList` when the name is shared
by several controls, or `null`. -/
def namedItem (fields : List Field) (n : String) : NamedItem :=
  match fields.filter (fun f => f.name == n) with
  | [] => NamedItem.null
  | [f] => NamedItem.single f
  | fs => NamedItem.group fs

/-- Writing `element.value = v` on the unique control `namedItem`
found: updates the value of the (first and only) control named `n`. -/
def updateFirst : List Field → String → String → List Field
  | [], _, _ => []
  | f :: rest, n, v =>
    if f.name == n then { f with value := v } :: rest
    else f :: updateFirst rest n v

/-- The `setValue` operation of `src/unnamed/part_000` (lines 94-102):
no-op when unbound; otherwise looks the name up via `namedItem` and,
only when the result is non-null and bears a `value` property, assigns
`element.value = value`.  A unique settable control gets its value
overwritten.  A `RadioNodeList` does pass the `'value' in element`
check, but its `value` setter only marks as checked a radio button
whose value attribute equals the assigned string; the modelled field
universe contains no radio buttons, so on these fields the assignment
leaves every control unchanged. -/
def setValue (st : Option FormElement) (n v : String) : Option FormElement :=
  match st with
  | none => none
  | some form =>
    match namedItem form.fields n with
    | NamedItem.null => some form
    | NamedItem.single f =>
      if f.settable then some ⟨updateFirst form.fields n v⟩ else some form
    | NamedItem.group _ => some form

namespace LegacyHook

/-- The `submit` handler of `src/src/useForm.hook.ts` (lines 12-22):
`event.preventDefault()` first, then return if the ref is unbound,
otherwise read the form data, parse it and invoke `handleSubmit`. -/
def submit (st : Option FormElement) : List Action :=
  Action.preventDefault ::
    match st with
    | none => []
    | some form =>
      [Action.extract, Action.callback (parseFormData (formEntries form.fields))]

end LegacyHook

/-- A bound form element holding a single email input. -/
def emailForm : FormElement :=
  ⟨[{ name := "email", value := "a@x.com", defaultValue := "", settable := true }]⟩

/-- A bound form element holding two text inputs that share the name
`tags` (a multi-valued field group). -/
def twoTagsForm : FormElement :=
  ⟨[{ name := "tags", value := "x", defaultValue := "x", settable := true },
    { name := "tags", value := "y", defaultValue := "y", settable := true }]⟩

/-! ### Helper lemmas about the converter -/

theorem valuesFor_cons (e : String × String) (rest : List (String × String))
    (n : String) :
    valuesFor (e :: rest) n =
      if e.1 = n then e.2 :: valuesFor rest n else valuesFor rest n := by
  by_cases he : e.1 = n <;> simp [valuesFor, List.filter_cons, he]

theorem valuesFor_eq_nil (entries : List (String × String)) (n : String)
    (h : n ∉ entries.map Prod.fst) : valuesFor entries n = [] := by
  induction entries with
  | nil => rfl
  | cons e rest ih =>
    simp only [List.map_cons, List.mem_cons, not_or] at h
    rw [valuesFor_cons, if_neg (fun hc => h.1 hc.symm), ih h.2]

theorem mem_of_valuesFor_ne_nil (entries : List (String × String)) (n : String)
    (h : valuesFor entries n ≠ []) : n ∈ entries.map Prod.fst := by
  by_contra hn
  exact h (valuesFor_eq_nil entries n hn)

theorem mem_dedupFirstAux (l : List String) :
    ∀ (seen : List String) (n : String),
      n ∈ dedupFirstAux seen l ↔ n ∈ l ∧ n ∉ seen := by
  induction l with
  | nil => intro seen n; simp [dedupFirstAux]
  | cons m rest ih =>
    intro seen n
    by_cases hm : m ∈ seen <;> by_cases hn : n = m <;>
      simp [dedupFirstAux, hm, hn, ih]

theorem mem_dedupFirst (l : List String) (n : String) :
    n ∈ dedupFirst l ↔ n ∈ l := by
  simp [dedupFirst, mem_dedupFirstAux]

theorem nodup_dedupFirstAux (l : List String) :
    ∀ seen : List String, (dedupFirstAux seen l).Nodup := by
  induction l with
  | nil => intro seen; simp [dedupFirstAux]
  | cons m rest ih =>
    intro seen
    by_cases hm : m ∈ seen <;>
      simp [dedupFirstAux, hm, List.nodup_cons, mem_dedupFirstAux, ih]

theorem dedupFirstAux_eq_self (l : List String) :
    ∀ seen : List String, l.Nodup → (∀ x ∈ l, x ∉ seen) →
      dedupFirstAux seen l = l := by
  induction l with
  | nil => intro seen _ _; rfl
  | cons m rest ih =>
    intro seen hnd hdisj
    have hm : m ∉ seen := hdisj m (by simp)
    have hrest : ∀ x ∈ rest, x ∉ m :: seen := by
      intro x hx
      simp only [List.mem_cons, not_or]
      refine ⟨fun hxm => (List.nodup_cons.mp hnd).1 (hxm ▸ hx), ?_⟩
      exact hdisj x (List.mem_cons_of_mem _ hx)
    simp only [dedupFirstAux, if_neg hm]
    rw [ih (m :: seen) (List.nodup_cons.mp hnd).2 hrest]

theorem dedupFirst_of_nodup (l : List String) (h : l.Nodup) :
    dedupFirst l = l :=
  dedupFirstAux_eq_self l [] h (by simp)

theorem lookup_map_key (l : List String) (g : String → FormVal) (n : String)
    (h : n ∈ l) :
    (l.map (fun m => (m, g m))).lookup n = some (g n) := by
  induction l with
  | nil => simp at h
  | cons m rest ih =>
    by_cases hm : n = m
    · subst hm; simp [List.lookup]
    · rcases List.mem_cons.mp h with h1 | h1
      · exact absurd h1 hm
      · simp [List.lookup, beq_false_of_ne hm, ih h1]

theorem lookup_parseFormData (entries : List (String × String)) (n : String)
    (h : valuesFor entries n ≠ []) :
    (parseFormData entries).lookup n = some (parseVal entries n) := by
  have hm : n ∈ dedupFirst (entries.map Prod.fst) :=
    (mem_dedupFirst _ _).mpr (mem_of_valuesFor_ne_nil entries n h)
  simpa [parseFormData] using lookup_map_key _ (parseVal entries) n hm

theorem valuesFor_of_nodup (entries : List (String × String))
    (h : (entries.map Prod.fst).Nodup) :
    ∀ e ∈ entries, valuesFor entries e.1 = [e.2] := by
  induction entries with
  | nil => intro e he; simp at he
  | cons a rest ih =>
    intro e he
    simp only [List.map_cons, List.nodup_cons] at h
    rcases List.mem_cons.mp he with rfl | hmem
    · rw [valuesFor_cons, if_pos rfl, valuesFor_eq_nil rest e.1 h.1]
    · have hne : a.1 ≠ e.1 := by
        intro heq
        exact h.1 (heq ▸ List.mem_map_of_mem Prod.fst hmem)
      rw [valuesFor_cons, if_neg hne]
      exact ih h.2 e hmem

/-! ### Claims about the converter -/

/-- Claim C1: for every entry sequence in which a field name occurs k
times (k >= 2) with values v1..vk in occurrence order, `parseFormData`
maps that name to the ordered sequence [v1..vk]; it never collapses the
occurrences to only the last value. -/
theorem parseFormData_repeated_name (entries : List (String × String))
    (n : String) (h : 2 ≤ (valuesFor entries n).length) :
    (parseFormData entries).lookup n =
      some (FormVal.multi (valuesFor entries n)) := by
  have hne : valuesFor entries n ≠ [] := by
    intro hnil
    rw [hnil] at h
    simp at h
  rw [lookup_parseFormData entries n hne]
  rcases hv : valuesFor entries n with _ | ⟨v1, _ | ⟨v2, vs⟩⟩
  · exact absurd hv hne
  · rw [hv] at h; simp at h
  · simp [parseVal, hv]

/-- Witness for C1: a name occurring twice maps to the two values in
occurrence order. -/
theorem parseFormData_repeated_name_witness :
    (parseFormData [("tags", "x"), ("tags", "y")]).lookup "tags" =
      some (FormVal.multi ["x", "y"]) := by
  have h := parseFormData_repeated_name [("tags", "x"), ("tags", "y")] "tags"
    (by decide)
  have hv : valuesFor [("tags", "x"), ("tags", "y")] "tags" = ["x", "y"] := by
    decide
  rw [hv] at h
  exact h

/-- Claim C2: for every entry sequence whose names are all distinct,
`parseFormData` produces a mapping with exactly one key per name, each
mapped to that entry's value as a plain scalar, never wrapped in a
one-element sequence. -/
theorem parseFormData_distinct_names (entries : List (String × String))
    (h : (entries.map Prod.fst).Nodup) :
    parseFormData entries =
      entries.map (fun e => (e.1, FormVal.scalar e.2)) := by
  unfold parseFormData
  rw [dedupFirst_of_nodup _ h, List.map_map]
  refine List.map_congr_left ?_
  intro e he
  simp [Function.comp, parseVal, valuesFor_of_nodup entries h e he]

/-- Witness for C2: two distinct names map to their scalar values. -/
theorem parseFormData_distinct_names_witness :
    parseFormData [("email", "a@x.com"), ("password", "p1")] =
      [("email", FormVal.scalar "a@x.com"),
        ("password", FormVal.scalar "p1")] := by
  have h := parseFormData_distinct_names
    [("email", "a@x.com"), ("password", "p1")] (by decide)
  simpa using h

/-- Claim C8: `parseFormData` applied to the empty entry sequence
yields the empty mapping; being a total function of its input, it has
no error conditions for any input. -/
theorem parseFormData_nil_eq : parseFormData [] = [] := rfl

/-- Claim C9: the parsed record contains exactly one key per distinct
field name present in the entry sequence at extraction time: its keys
contain no duplicates, and a name is a key exactly when it names some
entry, so there are no extra and no stale keys. -/
theorem parseFormData_keys (entries : List (String × String)) :
    ((parseFormData entries).map Prod.fst).Nodup ∧
      ∀ n : String,
        n ∈ (parseFormData entries).map Prod.fst ↔
          n ∈ entries.map Prod.fst := by
  have hkeys : (parseFormData entries).map Prod.fst =
      dedupFirst (entries.map Prod.fst) := by
    simp [parseFormData, Function.comp_def]
  rw [hkeys]
  exact ⟨nodup_dedupFirstAux _ _, fun n => mem_dedupFirst _ n⟩

/-! ### Helper lemmas about the form handle -/

theorem formEntries_cons (f : Field) (rest : List Field) :
    formEntries (f :: rest) =
      if f.settable then (f.name, f.value) :: formEntries rest
      else formEntries rest := by
  by_cases hs : f.settable <;> simp [formEntries, List.filter_cons, hs]

theorem formEntries_reset (fields : List Field) :
    formEntries (fields.map (fun f => { f with value := f.defaultValue })) =
      defaultEntries fields := by
  induction fields with
  | nil => rfl
  | cons f rest ih =>
    by_cases hs : f.settable <;>
      simpa [formEntries, defaultEntries, List.filter_cons, hs] using ih

theorem namedItem_single_of_filter (fields : List Field) (n : String)
    (f0 : Field) (hf : fields.filter (fun f => f.name == n) = [f0]) :
    namedItem fields n = NamedItem.single f0 := by
  rw [namedItem, hf]

theorem filter_updateFirst (n v : String) :
    ∀ (l : List Field) (f0 : Field),
      l.filter (fun f => f.name == n) = [f0] →
      (updateFirst l n v).filter (fun f => f.name == n) =
        [{ f0 with value := v }] := by
  intro l
  induction l with
  | nil => intro f0 h; simp at h
  | cons a rest ih =>
    intro f0 h
    cases ha : (a.name == n) with
    | true =>
      rw [List.filter_cons, if_pos ha] at h
      simp only [List.cons.injEq] at h
      obtain ⟨rfl, hrest⟩ := h
      simp only [updateFirst]
      rw [if_pos ha]
      simp [List.filter_cons, ha, hrest]
    | false =>
      rw [List.filter_cons, if_neg (by simp [ha])] at h
      simp only [updateFirst]
      rw [if_neg (by simp [ha]), List.filter_cons, if_neg (by simp [ha])]
      exact ih f0 h

theorem valuesFor_formEntries (fields : List Field) (n : String) :
    valuesFor (formEntries fields) n =
      (fields.filter (fun f => f.settable && (f.name == n))).map
        (fun f => f.value) := by
  induction fields with
  | nil => rfl
  | cons f rest ih =>
    rw [formEntries_cons]
    by_cases hs : f.settable
    · rw [if_pos hs, valuesFor_cons]
      by_cases hn : f.name = n
      · simp [List.filter_cons, hs, hn, ih]
      · simp [List.filter_cons, hs, hn, ih]
    · rw [if_neg hs]
      simp [List.filter_cons, hs, ih]

theorem filter_and_of_filter_singleton (n : String) (l : List Field)
    (f0 : Field) (hf : l.filter (fun f => f.name == n) = [f0])
    (hs : f0.settable = true) :
    l.filter (fun f => f.settable && (f.name == n)) = [f0] := by
  have h := @List.filter_filter Field (fun f : Field => f.settable)
    (fun f : Field => f.name == n) l
  rw [← h, hf, List.filter_cons, if_pos hs]
  rfl

/-! ### Claims about the form handle -/

/-- Claim C3 counterexample: while the reference is unbound, `onSubmit`
still performs an observable action, namely suppressing the event's
default behavior — its action trace is `[preventDefault]`, not the
empty trace required by the claim's "no observable side effect". -/
theorem onSubmit_unbound_prevents_default :
    onSubmit none = [Action.preventDefault] ∧ onSubmit none ≠ [] := by
  refine ⟨rfl, by simp [onSubmit]⟩

/-- Claim C3 (amended): while the reference is unbound, `reset`,
`getFormData` and `setValue` raise no exception and have no observable
effect, and `getFormData` returns null; `onSubmit` raises no exception,
performs no field extraction and never invokes the callback, but it
does suppress the event's default behavior before checking the
binding. -/
theorem unbound_operations_noop :
    reset none = none ∧ getFormData none = none ∧
      (∀ n v : String, setValue none n v = none) ∧
      onSubmit none = [Action.preventDefault] ∧
      Action.extract ∉ onSubmit none ∧
      ∀ r : List (String × FormVal), Action.callback r ∉ onSubmit none := by
  refine ⟨rfl, rfl, fun n v => rfl, rfl, by simp [onSubmit],
    fun r => by simp [onSubmit]⟩

/-- Claim C4: on a bound element, `onSubmit` suppresses the default
submission behavior first, then extracts the field entries, then
invokes the registered callback exactly once, with the parsed record of
the element's current fields as its argument — its full action trace in
order. -/
theorem onSubmit_bound_trace (form : FormElement) :
    onSubmit (some form) =
      [Action.preventDefault, Action.extract,
        Action.callback (parseFormData (formEntries form.fields))] := rfl

/-- Claim C5: when no element with the given name exists, or the
element found has no settable value, `setValue` completes without
error and leaves the form state unchanged, so a subsequent
`getFormData` returns the same record as before the call. -/
theorem setValue_missing_or_unsettable_noop (form : FormElement)
    (n v : String)
    (h : namedItem form.fields n = NamedItem.null ∨
      ∃ f : Field,
        namedItem form.fields n = NamedItem.single f ∧ f.settable = false) :
    setValue (some form) n v = some form ∧
      getFormData (setValue (some form) n v) = getFormData (some form) := by
  have hs : setValue (some form) n v = some form := by
    rcases h with h | ⟨f, hf, hset⟩
    · simp [setValue, h]
    · simp [setValue, hf, hset]
  exact ⟨hs, by rw [hs]⟩

/-- Witness for C5: `setValue` with a name absent from the form leaves
the element untouched. -/
theorem setValue_missing_or_unsettable_noop_witness :
    setValue (some emailForm) "nonexistent" "v" = some emailForm ∧
      getFormData (setValue (some emailForm) "nonexistent" "v") =
        getFormData (some emailForm) :=
  setValue_missing_or_unsettable_noop emailForm "nonexistent" "v"
    (Or.inl (by decide))

/-- Claim C7: `reset` on a bound element restores every field to its
default value, so a subsequent `getFormData` returns the parsed record
of the element's original default values. -/
theorem reset_restores_defaults (form : FormElement) :
    getFormData (reset (some form)) =
      some (parseFormData (defaultEntries form.fields)) := by
  simp [getFormData, reset, formEntries_reset]

/-- Claim C10: the `submit` handler of `src/src/useForm.hook.ts` and
the `onSubmit` handler of `src/unnamed/part_000` are behaviorally
equivalent: for every reference state they produce the same trace —
suppress default behavior, return if unbound, otherwise extract, parse
and invoke the callback exactly once with the parsed record. -/
theorem submit_eq_onSubmit (st : Option FormElement) :
    LegacyHook.submit st = onSubmit st := by
  cases st <;> rfl

/-- Claim C6 counterexample: `twoTagsForm` is a bound element
containing a value-bearing field named `tags`, yet
`setValue "tags" "z"` is a silent no-op — `namedItem` yields a
`RadioNodeList` over the two text inputs, and its `value` setter only
checks a matching radio button — so `getFormData` still maps `tags` to
the sequence ["x", "y"], not to the plain value "z": the claim's
universally quantified conclusion fails when the name occurs in more
than one field. -/
theorem setValue_duplicate_name_not_scalar :
    setValue (some twoTagsForm) "tags" "z" = some twoTagsForm ∧
      getFormData (setValue (some twoTagsForm) "tags" "z") =
        some [("tags", FormVal.multi ["x", "y"])] ∧
      (getFormData (setValue (some twoTagsForm) "tags" "z")).bind
        (fun r => r.lookup "tags") ≠ some (FormVal.scalar "z") := by
  refine ⟨by decide, by decide, by decide⟩

/-- Claim C6 (amended): for every bound element in which exactly one
field bears the given name and that field is value-bearing,
`setValue(name, v)` overwrites that field's value with v, so a
subsequent `getFormData` returns a record mapping that name to the
scalar v. -/
theorem setValue_unique_settable (form : FormElement) (n v : String)
    (f0 : Field)
    (hf : form.fields.filter (fun f => f.name == n) = [f0])
    (hs : f0.settable = true) :
    ∃ r, getFormData (setValue (some form) n v) = some r ∧
      r.lookup n = some (FormVal.scalar v) := by
  have hfind : namedItem form.fields n = NamedItem.single f0 :=
    namedItem_single_of_filter form.fields n f0 hf
  have hset : setValue (some form) n v =
      some ⟨updateFirst form.fields n v⟩ := by
    simp [setValue, hfind, hs]
  have hval : valuesFor (formEntries (updateFirst form.fields n v)) n =
      [v] := by
    rw [valuesFor_formEntries,
      filter_and_of_filter_singleton n _ _
        (filter_updateFirst n v form.fields f0 hf) hs]
    rfl
  refine ⟨parseFormData (formEntries (updateFirst form.fields n v)), ?_, ?_⟩
  · rw [hset]; rfl
  · rw [lookup_parseFormData _ _ (by simp [hval])]
    simp [parseVal, hval]

/-- Witness for C6 (amended): setting the single email field and
reading the record back. -/
theorem setValue_unique_settable_witness :
    ∃ r, getFormData (setValue (some emailForm) "email" "new@x.com") =
        some r ∧
      r.lookup "email" = some (FormVal.scalar "new@x.com") :=
  setValue_unique_settable emailForm "email" "new@x.com"
    { name := "email", value := "a@x.com", defaultValue := "",
      settable := true }
    (by decide) rfl

end FormHook
